import Mathlib

/-!
# Verification of the `prefix_tree_map` builder (`src/builder.rs`)

Shallow embedding of the construction phase of the prefix tree map:
the mutable builder (`PrefixTreeMapBuilder`), its `insert` / `insert_exact`
operations, and the consuming `build` transformation into the finished
immutable tree.

Only `src/builder.rs` is available; the repository files defining
`KeyPart` (`key_part.rs`) and `Node` / `PrefixTreeMap`
(`prefix_tree_map.rs`) are not, so those types are modelled from the
spec (each such definition carries a doc comment saying so).

Modelling notes, fixed once here:

* The `Children` collection is `BinaryHeap<Rc<NodeBuilder>>` in the
  source.  The heap is observed only through (a) `find`-by-key-part
  equality over its iterator, (b) `peek` on a freshly created singleton
  heap, and (c) `into_sorted_vec` (ascending in the `Ord` of
  `NodeBuilder`, which compares `key_part: Option<KeyPart>` with `None`
  least).  We model the collection as a `List` in insertion order:
  `push` is an append, `find` is `List.find?`, and `into_sorted_vec` is
  `List.mergeSort` by that same order.  Since a new child is pushed only
  when no child with an equal key part exists, sibling key parts are
  pairwise distinct in every reachable tree, so the first `find` match
  is the unique match and the heap's internal iteration order is
  unobservable.
* Machine integers: `max_wildcard_depth` and the per-insert counter are
  Rust `usize`; they only ever grow by 1 per consumed key part, so they
  are modelled as `Nat` (overflow is unreachable for any finite input).
* The single-builder construction tree is modelled purely: with one
  builder and no `clone`, the `Rc`/`RefCell` cursor mutation of the
  source is observationally a pure recursive update (the cursor created
  by `insert` is dropped before `insert` returns).  Sharing introduced
  by the derived `Clone` (which clones the `Rc` root pointer) is
  modelled separately by an arena semantics with explicit reference
  counts, used for the `build`/`Rc::try_unwrap` and `clone`-aliasing
  claims.
-/

/-- Modelled from the spec: `KeyPart` (`key_part.rs`, not present under
`src/`): "a two-category tagged value" `{Exact(value: E), Wildcard(weight: W)}`
(§3). -/
inductive KeyPart (E W : Type) : Type where
  | Exact : E → KeyPart E W
  | Wildcard : W → KeyPart E W
deriving DecidableEq

namespace KeyPart

variable {E W : Type}

/-- Modelled from the spec: "Predicate `is_wildcard()` reports category" (§3). -/
def is_wildcard : KeyPart E W → Bool
  | .Exact _ => false
  | .Wildcard _ => true

/-- Modelled from the spec: the total order over key parts (§4.1):
"category acts as the primary discriminator ... and within a category,
ordering falls back to the payload's own order".  The spec leaves the
category boundary open (§9); we fix the policy `Exact` before
`Wildcard`, ascending payload within a category. -/
def leB [LinearOrder E] [LinearOrder W] : KeyPart E W → KeyPart E W → Bool
  | .Exact a, .Exact b => decide (a ≤ b)
  | .Exact _, .Wildcard _ => true
  | .Wildcard _, .Exact _ => false
  | .Wildcard a, .Wildcard b => decide (a ≤ b)

end KeyPart

/-- Order on `Option<KeyPart>` as derived in Rust (`None` least), used by
`impl Ord for NodeBuilder` (`self.key_part.cmp(&other.key_part)`,
builder.rs lines 184-192). -/
def optKpLe {E W : Type} [LinearOrder E] [LinearOrder W] :
    Option (KeyPart E W) → Option (KeyPart E W) → Bool
  | none, _ => true
  | some _, none => false
  | some a, some b => KeyPart.leB a b

/-- One construction-tree node (`NodeBuilder`, builder.rs lines 18-25).
`children` models `RefCell<Option<BinaryHeap<Rc<NodeBuilder>>>>` as a
list in insertion order (see the header note). -/
inductive NodeBuilder (E W V : Type) : Type where
  | mk (key_part : Option (KeyPart E W)) (value : Option V)
      (children : Option (List (NodeBuilder E W V)))

namespace NodeBuilder

variable {E W V : Type}

def key_part : NodeBuilder E W V → Option (KeyPart E W)
  | .mk kp _ _ => kp

def value : NodeBuilder E W V → Option V
  | .mk _ v _ => v

def children : NodeBuilder E W V → Option (List (NodeBuilder E W V))
  | .mk _ _ cs => cs

@[simp] theorem key_part_mk (kp : Option (KeyPart E W)) (v : Option V)
    (cs : Option (List (NodeBuilder E W V))) : (NodeBuilder.mk kp v cs).key_part = kp := rfl

@[simp] theorem value_mk (kp : Option (KeyPart E W)) (v : Option V)
    (cs : Option (List (NodeBuilder E W V))) : (NodeBuilder.mk kp v cs).value = v := rfl

@[simp] theorem children_mk (kp : Option (KeyPart E W)) (v : Option V)
    (cs : Option (List (NodeBuilder E W V))) : (NodeBuilder.mk kp v cs).children = cs := rfl

/-- `NodeBuilder::new` (builder.rs lines 148-154). -/
def new (kp : KeyPart E W) : NodeBuilder E W V := .mk (some kp) none none

end NodeBuilder

variable {E W V : Type}

/-- Replace the first child whose key part equals `kp` (the unique such
child in every reachable tree) by `c`.  Models the in-place mutation,
through the found `Rc`, of the child that
`children.iter().find(|child| child.key_part.as_ref() == Some(&key_part))`
returns (builder.rs lines 71-77). -/
def setFirstMatch [DecidableEq E] [DecidableEq W] (kp : KeyPart E W)
    (c : NodeBuilder E W V) : List (NodeBuilder E W V) → List (NodeBuilder E W V)
  | [] => []
  | a :: as => if a.key_part = some kp then c :: as else a :: setFirstMatch kp c as

/-- The tree effect of `PrefixTreeMapBuilder::insert` (builder.rs lines
49-94), as a pure recursion over the key: walk/extend the tree along the
key, then set the value slot of the final cursor node.  Matches the
source loop case for case: no `children` yet ⇒ allocate a singleton
collection holding a fresh node (lines 58-66); existing child with an
equal key part ⇒ descend into it (lines 71-77); otherwise push a fresh
node and descend into it (lines 78-90). -/
def insertNode [DecidableEq E] [DecidableEq W] :
    NodeBuilder E W V → List (KeyPart E W) → V → NodeBuilder E W V
  | t, [], v => .mk t.key_part (some v) t.children
  | t, kp :: rest, v =>
    match t.children with
    | none => .mk t.key_part t.value (some [insertNode (NodeBuilder.new kp) rest v])
    | some cs =>
      match cs.find? (fun c => decide (c.key_part = some kp)) with
      | some c => .mk t.key_part t.value (some (setFirstMatch kp (insertNode c rest v) cs))
      | none =>
          .mk t.key_part t.value (some (cs ++ [insertNode (NodeBuilder.new kp) rest v]))

/-- Number of wildcard-category parts of a key: the `wildcard_depth`
counter accumulated by the loop of `insert` (builder.rs lines 51-56). -/
def countWild (key : List (KeyPart E W)) : Nat :=
  key.countP (fun kp => kp.is_wildcard)

/-- The builder (`PrefixTreeMapBuilder`, builder.rs lines 12-16), in the
single-builder pure view: the root construction node and the
`max_wildcard_depth` high-water mark. -/
structure PrefixTreeMapBuilder (E W V : Type) : Type where
  root : NodeBuilder E W V
  max_wildcard_depth : Nat

namespace PrefixTreeMapBuilder

/-- `PrefixTreeMapBuilder::new` (builder.rs lines 33-42). -/
def new : PrefixTreeMapBuilder E W V :=
  { root := .mk none none none, max_wildcard_depth := 0 }

/-- `PrefixTreeMapBuilder::insert` (builder.rs lines 49-97). -/
def insert [DecidableEq E] [DecidableEq W] (b : PrefixTreeMapBuilder E W V)
    (key : List (KeyPart E W)) (v : V) : PrefixTreeMapBuilder E W V :=
  { root := insertNode b.root key v,
    max_wildcard_depth := max b.max_wildcard_depth (countWild key) }

/-- `PrefixTreeMapBuilder::insert_exact` (builder.rs lines 100-102). -/
def insert_exact [DecidableEq E] [DecidableEq W] (b : PrefixTreeMapBuilder E W V)
    (key : List E) (v : V) : PrefixTreeMapBuilder E W V :=
  b.insert (key.map KeyPart.Exact) v

end PrefixTreeMapBuilder

/-- Walk the construction tree along a path of key parts, following at
each step the first child whose key part equals the next part — exactly
the lookup that `insert` itself performs.  Returns the node at that
path, if any. -/
def findNode [DecidableEq E] [DecidableEq W] :
    NodeBuilder E W V → List (KeyPart E W) → Option (NodeBuilder E W V)
  | t, [] => some t
  | t, kp :: rest =>
    match t.children with
    | none => none
    | some cs =>
      match cs.find? (fun c => decide (c.key_part = some kp)) with
      | some c => findNode c rest
      | none => none

/-- All nodes reachable along a path, following every matching child at
every step (so duplicated siblings would yield several nodes for one
path). -/
def nodesAt [DecidableEq E] [DecidableEq W] :
    NodeBuilder E W V → List (KeyPart E W) → List (NodeBuilder E W V)
  | t, [] => [t]
  | t, kp :: rest =>
    match t.children with
    | none => []
    | some cs =>
      (cs.filter (fun c => decide (c.key_part = some kp))).flatMap (fun c => nodesAt c rest)

/-- Path-local observation of a construction tree: the key part and the
value slot of the node at a given path (if the path exists). -/
def obs [DecidableEq E] [DecidableEq W] (t : NodeBuilder E W V)
    (p : List (KeyPart E W)) : Option (Option (KeyPart E W) × Option V) :=
  (findNode t p).map (fun n => (n.key_part, n.value))

/-- `p` is a (possibly improper) prefix of `k`. -/
def isFront [DecidableEq E] [DecidableEq W] :
    List (KeyPart E W) → List (KeyPart E W) → Bool
  | [], _ => true
  | _ :: _, [] => false
  | a :: as, b :: bs => decide (a = b) && isFront as bs

/-- The key part held by the node at path `p` of a tree whose root key
part is `rootKp`: the root's for the empty path, otherwise the last part
of the path. -/
def kpForP (rootKp : Option (KeyPart E W)) (p : List (KeyPart E W)) :
    Option (KeyPart E W) :=
  match p.getLast? with
  | none => rootKp
  | some a => some a

/-- The pointwise effect of one `insert` on the observation at a fixed
path `p`: the node at `p = k` gets value `v`; a node at a proper prefix
of `k` exists afterwards and keeps its old value (none if it did not
exist); every other path is untouched. -/
def obsF (rootKp : Option (KeyPart E W)) [DecidableEq E] [DecidableEq W]
    (k : List (KeyPart E W)) (v : V) (p : List (KeyPart E W))
    (o : Option (Option (KeyPart E W) × Option V)) :
    Option (Option (KeyPart E W) × Option V) :=
  if p = k then some (kpForP rootKp p, some v)
  else if isFront p k then some (kpForP rootKp p, o.bind (fun x => x.2))
  else o

section CharLemmas

variable [DecidableEq E] [DecidableEq W]

theorem insertNode_key_part (t : NodeBuilder E W V) (k : List (KeyPart E W)) (v : V) :
    (insertNode t k v).key_part = t.key_part := by
  cases t with | mk kp val cso =>
  cases k with
  | nil => rfl
  | cons y k' =>
    cases cso with
    | none => rfl
    | some cs =>
      cases h : cs.find? (fun c => decide (c.key_part = some y)) <;>
        simp [insertNode, h]

theorem insertNode_value_cons (t : NodeBuilder E W V) (y : KeyPart E W)
    (k' : List (KeyPart E W)) (v : V) :
    (insertNode t (y :: k') v).value = t.value := by
  cases t with | mk kp val cso =>
  cases cso with
  | none => rfl
  | some cs =>
    cases h : cs.find? (fun c => decide (c.key_part = some y)) <;>
      simp [insertNode, h]

theorem kpForP_cons (rk : Option (KeyPart E W)) (y : KeyPart E W)
    (p : List (KeyPart E W)) : kpForP rk (y :: p) = kpForP (some y) p := by
  cases p with
  | nil => rfl
  | cons z zs =>
    have hs : ((z :: zs).getLast?).isSome = true := by
      rw [List.getLast?_isSome]; simp
    cases h : (z :: zs).getLast? with
    | none => rw [h] at hs; simp at hs
    | some a => simp [kpForP, List.getLast?_cons_cons, h]

theorem obs_nil (t : NodeBuilder E W V) : obs t [] = some (t.key_part, t.value) := by
  simp [obs, findNode]

theorem obs_new_nil (y : KeyPart E W) :
    obs (NodeBuilder.new (V := V) y) [] = some (some y, none) := by
  simp [obs, findNode, NodeBuilder.new]

theorem obs_new_cons (y z : KeyPart E W) (zs : List (KeyPart E W)) :
    obs (NodeBuilder.new (V := V) y) (z :: zs) = none := by
  simp [obs, findNode, NodeBuilder.new]

/-- Lifting the per-step observation transformer across a shared head:
the transformer for key `y :: k'` at path `y :: p'` is the transformer
for `k'` at `p'` under root key part `some y`. -/
theorem obsF_cons (rk : Option (KeyPart E W)) (y : KeyPart E W)
    (k' p' : List (KeyPart E W)) (v : V)
    (o : Option (Option (KeyPart E W) × Option V)) :
    obsF rk (y :: k') v (y :: p') o = obsF (some y) k' v p' o := by
  have hfr : isFront (y :: p') (y :: k') = isFront p' k' := by simp [isFront]
  simp [obsF, hfr, kpForP_cons]

/-- Observations of a freshly created node behave, through `obsF`, like
the absent observation. -/
theorem obsF_new (y : KeyPart E W) (k' p' : List (KeyPart E W)) (v : V) :
    obsF (some y) k' v p' (obs (NodeBuilder.new (V := V) y) p') =
      obsF (some y) k' v p' none := by
  unfold obsF
  by_cases h1 : p' = k'
  · simp [h1]
  · by_cases h2 : isFront p' k'
    · cases p' with
      | nil => simp [h1, h2, obs_new_nil]
      | cons z zs => simp [h1, h2, obs_new_cons]
    · cases p' with
      | nil => simp [isFront] at h2
      | cons z zs => simp [h1, h2, obs_new_cons]

theorem find?_setFirstMatch (x y : KeyPart E W) (cs : List (NodeBuilder E W V))
    (c c' : NodeBuilder E W V)
    (h : cs.find? (fun a => decide (a.key_part = some y)) = some c)
    (hc' : c'.key_part = some y) :
    (setFirstMatch y c' cs).find? (fun a => decide (a.key_part = some x)) =
      if x = y then some c'
      else cs.find? (fun a => decide (a.key_part = some x)) := by
  induction cs with
  | nil => simp [List.find?] at h
  | cons a as ih =>
    by_cases ha : a.key_part = some y
    · rw [List.find?_cons_of_pos _ (by simpa using ha)] at h
      have hc : c = a := by injection h with h'; exact h'.symm
      subst hc
      simp only [setFirstMatch, if_pos ha]
      by_cases hxy : x = y
      · subst hxy
        rw [List.find?_cons_of_pos _ (by simpa using hc')]
        simp
      · have hcx : ¬ (c'.key_part = some x) := by
          rw [hc']; intro hh; exact hxy (by injection hh with h'; exact h'.symm)
        have hax : ¬ (c.key_part = some x) := by
          rw [ha]; intro hh; exact hxy (by injection hh with h'; exact h'.symm)
        rw [List.find?_cons_of_neg _ (by simpa using hcx)]
        rw [if_neg hxy, List.find?_cons_of_neg _ (by simpa using hax)]
    · rw [List.find?_cons_of_neg _ (by simpa using ha)] at h
      simp only [setFirstMatch, if_neg ha]
      by_cases hax : a.key_part = some x
      · have hxy : ¬ x = y := by
          intro hh; exact ha (by rw [hax, hh])
        rw [List.find?_cons_of_pos _ (by simpa using hax)]
        rw [if_neg hxy, List.find?_cons_of_pos _ (by simpa using hax)]
      · rw [List.find?_cons_of_neg _ (by simpa using hax)]
        rw [ih h]
        by_cases hxy : x = y
        · simp [hxy]
        · rw [if_neg hxy, if_neg hxy, List.find?_cons_of_neg _ (by simpa using hax)]

end CharLemmas

section CharMain

variable [DecidableEq E] [DecidableEq W]

theorem obs_cons_none (kp : Option (KeyPart E W)) (val : Option V)
    (x : KeyPart E W) (p' : List (KeyPart E W)) :
    obs (NodeBuilder.mk kp val none) (x :: p') = none := by
  simp [obs, findNode]

theorem obs_cons_found (kp : Option (KeyPart E W)) (val : Option V)
    {cs : List (NodeBuilder E W V)} {x : KeyPart E W} {c : NodeBuilder E W V}
    (p' : List (KeyPart E W))
    (h : cs.find? (fun a => decide (a.key_part = some x)) = some c) :
    obs (NodeBuilder.mk kp val (some cs)) (x :: p') = obs c p' := by
  simp [obs, findNode, h]

theorem obs_cons_notfound (kp : Option (KeyPart E W)) (val : Option V)
    {cs : List (NodeBuilder E W V)} {x : KeyPart E W}
    (p' : List (KeyPart E W))
    (h : cs.find? (fun a => decide (a.key_part = some x)) = none) :
    obs (NodeBuilder.mk kp val (some cs)) (x :: p') = none := by
  simp [obs, findNode, h]

/-- Pointwise characterisation of `insert`'s tree effect: the
observation at any path `p` after inserting value `v` at key `k` is
`obsF` applied to the observation before. -/
theorem obs_insertNode (k : List (KeyPart E W)) :
    ∀ (t : NodeBuilder E W V) (p : List (KeyPart E W)) (v : V),
    obs (insertNode t k v) p = obsF t.key_part k v p (obs t p) := by
  induction k with
  | nil =>
    intro t p v
    cases t with | mk kp val cso =>
    cases p with
    | nil => simp [insertNode, obs_nil, obsF, kpForP]
    | cons x p' =>
      have h1 : ¬ (x :: p' = ([] : List (KeyPart E W))) := by simp
      have h2 : isFront (x :: p') ([] : List (KeyPart E W)) = false := rfl
      simp only [obsF, if_neg h1, h2, Bool.false_eq_true, if_false]
      cases cso with
      | none => rw [show insertNode (NodeBuilder.mk kp val none) [] v
          = NodeBuilder.mk kp (some v) none from rfl, obs_cons_none, obs_cons_none]
      | some cs =>
        rw [show insertNode (NodeBuilder.mk kp val (some cs)) [] v
          = NodeBuilder.mk kp (some v) (some cs) from rfl]
        cases h : cs.find? (fun a => decide (a.key_part = some x)) with
        | some c => rw [obs_cons_found kp (some v) p' h, obs_cons_found kp val p' h]
        | none => rw [obs_cons_notfound kp (some v) p' h, obs_cons_notfound kp val p' h]
  | cons y k' ih =>
    intro t p v
    cases t with | mk kp val cso =>
    cases p with
    | nil =>
      rw [obs_nil, insertNode_key_part, insertNode_value_cons]
      have h1 : ¬ (([] : List (KeyPart E W)) = y :: k') := by simp
      have h2 : isFront ([] : List (KeyPart E W)) (y :: k') = true := rfl
      simp [obsF, h1, h2, obs_nil, kpForP]
    | cons x p' =>
      have hnew : (insertNode (NodeBuilder.new (V := V) y) k' v).key_part = some y := by
        rw [insertNode_key_part]; rfl
      cases cso with
      | none =>
        have e1 : insertNode (NodeBuilder.mk kp val none) (y :: k') v
            = NodeBuilder.mk kp val (some [insertNode (NodeBuilder.new y) k' v]) := rfl
        rw [e1, obs_cons_none]
        by_cases hxy : x = y
        · subst hxy
          have hfind : [insertNode (NodeBuilder.new (V := V) x) k' v].find?
              (fun a => decide (a.key_part = some x))
              = some (insertNode (NodeBuilder.new x) k' v) :=
            List.find?_cons_of_pos _ (by simp [hnew])
          rw [obs_cons_found kp val p' hfind, ih,
            show (NodeBuilder.new (V := V) x).key_part = some x from rfl,
            obsF_new, obsF_cons]
        · have hfind : [insertNode (NodeBuilder.new (V := V) y) k' v].find?
              (fun a => decide (a.key_part = some x)) = none := by
            rw [List.find?_cons_of_neg _ (by simp [hnew]; exact fun h => hxy h.symm)]
            rfl
          rw [obs_cons_notfound kp val p' hfind]
          have hne1 : ¬ (x :: p' = y :: k') := by
            intro h; injection h with h1 _; exact hxy h1
          have hne2 : isFront (x :: p') (y :: k') = false := by simp [isFront, hxy]
          simp [obsF, hne1, hne2]
      | some cs =>
        cases hf : cs.find? (fun c => decide (c.key_part = some y)) with
        | some c =>
          have hckp : c.key_part = some y := by
            have := List.find?_some hf; simpa using this
          have hc' : (insertNode c k' v).key_part = some y := by
            rw [insertNode_key_part, hckp]
          have e1 : insertNode (NodeBuilder.mk kp val (some cs)) (y :: k') v
              = NodeBuilder.mk kp val
                  (some (setFirstMatch y (insertNode c k' v) cs)) := by
            simp [insertNode, hf]
          rw [e1]
          by_cases hxy : x = y
          · subst hxy
            have hfind : (setFirstMatch x (insertNode c k' v) cs).find?
                (fun a => decide (a.key_part = some x))
                = some (insertNode c k' v) := by
              rw [find?_setFirstMatch x x cs c _ hf hc', if_pos rfl]
            rw [obs_cons_found kp val p' hfind, ih, hckp,
              obs_cons_found kp val p' hf, obsF_cons]
          · have hset : (setFirstMatch y (insertNode c k' v) cs).find?
                (fun a => decide (a.key_part = some x))
                = cs.find? (fun a => decide (a.key_part = some x)) := by
              rw [find?_setFirstMatch x y cs c _ hf hc', if_neg hxy]
            have hne1 : ¬ (x :: p' = y :: k') := by
              intro h; injection h with h1 _; exact hxy h1
            have hne2 : isFront (x :: p') (y :: k') = false := by simp [isFront, hxy]
            cases hx : cs.find? (fun a => decide (a.key_part = some x)) with
            | some d =>
              rw [obs_cons_found kp val p' (hset.trans hx), obs_cons_found kp val p' hx]
              simp only [obsF, if_neg hne1, hne2, Bool.false_eq_true, if_false]
            | none =>
              rw [obs_cons_notfound kp val p' (hset.trans hx),
                obs_cons_notfound kp val p' hx]
              simp only [obsF, if_neg hne1, hne2, Bool.false_eq_true, if_false]
        | none =>
          have e1 : insertNode (NodeBuilder.mk kp val (some cs)) (y :: k') v
              = NodeBuilder.mk kp val
                  (some (cs ++ [insertNode (NodeBuilder.new y) k' v])) := by
            simp [insertNode, hf]
          rw [e1]
          by_cases hxy : x = y
          · subst hxy
            have hfind : (cs ++ [insertNode (NodeBuilder.new (V := V) x) k' v]).find?
                (fun a => decide (a.key_part = some x))
                = some (insertNode (NodeBuilder.new x) k' v) := by
              rw [List.find?_append, hf, Option.none_or,
                List.find?_cons_of_pos _ (by simp [hnew])]
            rw [obs_cons_found kp val p' hfind, ih,
              show (NodeBuilder.new (V := V) x).key_part = some x from rfl,
              obsF_new, obsF_cons, obs_cons_notfound kp val p' hf]
          · have hone : ([insertNode (NodeBuilder.new (V := V) y) k' v]).find?
                (fun a => decide (a.key_part = some x)) = none := by
              rw [List.find?_cons_of_neg _ (by simp [hnew]; exact fun h => hxy h.symm)]
              rfl
            have happ : (cs ++ [insertNode (NodeBuilder.new (V := V) y) k' v]).find?
                (fun a => decide (a.key_part = some x))
                = cs.find? (fun a => decide (a.key_part = some x)) := by
              rw [List.find?_append, hone, Option.or_none]
            have hne1 : ¬ (x :: p' = y :: k') := by
              intro h; injection h with h1 _; exact hxy h1
            have hne2 : isFront (x :: p') (y :: k') = false := by simp [isFront, hxy]
            cases hx : cs.find? (fun a => decide (a.key_part = some x)) with
            | some d =>
              rw [obs_cons_found kp val p' (happ.trans hx), obs_cons_found kp val p' hx]
              simp only [obsF, if_neg hne1, hne2, Bool.false_eq_true, if_false]
            | none =>
              rw [obs_cons_notfound kp val p' (happ.trans hx),
                obs_cons_notfound kp val p' hx]
              simp only [obsF, if_neg hne1, hne2, Bool.false_eq_true, if_false]

end CharMain

section Invariants

variable [DecidableEq E] [DecidableEq W]

/-- The sibling-distinctness invariant of the construction tree (§3):
every node's children hold pairwise distinct key parts, recursively. -/
inductive SD : NodeBuilder E W V → Prop where
  | noneC : ∀ (kp : Option (KeyPart E W)) (v : Option V), SD (.mk kp v none)
  | someC : ∀ (kp : Option (KeyPart E W)) (v : Option V) (l : List (NodeBuilder E W V)),
      List.Pairwise (fun a b => a.key_part ≠ b.key_part) l →
      (∀ c ∈ l, SD c) → SD (.mk kp v (some l))

theorem mem_setFirstMatch {y : KeyPart E W} {c' b : NodeBuilder E W V} :
    ∀ {cs : List (NodeBuilder E W V)}, b ∈ setFirstMatch y c' cs → b = c' ∨ b ∈ cs := by
  intro cs
  induction cs with
  | nil => intro h; simp [setFirstMatch] at h
  | cons a as ih =>
    intro h
    by_cases ha : a.key_part = some y
    · rw [setFirstMatch, if_pos ha] at h
      rcases List.mem_cons.mp h with h | h
      · exact Or.inl h
      · exact Or.inr (List.mem_cons_of_mem a h)
    · rw [setFirstMatch, if_neg ha] at h
      rcases List.mem_cons.mp h with h | h
      · exact Or.inr (h ▸ List.mem_cons_self a as)
      · rcases ih h with h | h
        · exact Or.inl h
        · exact Or.inr (List.mem_cons_of_mem a h)

theorem pairwise_setFirstMatch {y : KeyPart E W} {c' : NodeBuilder E W V}
    (hkp : c'.key_part = some y) :
    ∀ {cs : List (NodeBuilder E W V)},
      List.Pairwise (fun a b => a.key_part ≠ b.key_part) cs →
      List.Pairwise (fun a b => a.key_part ≠ b.key_part) (setFirstMatch y c' cs) := by
  intro cs
  induction cs with
  | nil => intro _; exact List.Pairwise.nil
  | cons a as ih =>
    intro hp
    rcases List.pairwise_cons.mp hp with ⟨ha, has⟩
    by_cases hay : a.key_part = some y
    · rw [setFirstMatch, if_pos hay]
      refine List.pairwise_cons.mpr ⟨?_, has⟩
      intro b hb
      rw [hkp, ← hay]
      exact ha b hb
    · rw [setFirstMatch, if_neg hay]
      refine List.pairwise_cons.mpr ⟨?_, ih has⟩
      intro b hb
      rcases mem_setFirstMatch hb with rfl | hb
      · rw [hkp]; exact fun h => hay h
      · exact ha b hb

/-- `insert` preserves sibling distinctness: a node is pushed only when
no sibling with an equal key part exists, and the in-place update of a
found child keeps its key part. -/
theorem SD_insertNode (k : List (KeyPart E W)) :
    ∀ (t : NodeBuilder E W V) (v : V), SD t → SD (insertNode t k v) := by
  induction k with
  | nil =>
    intro t v h
    cases h with
    | noneC kp val => exact SD.noneC kp (some v)
    | someC kp val l hp hm => exact SD.someC kp (some v) l hp hm
  | cons y k' ih =>
    intro t v h
    have hnewSD : SD (NodeBuilder.new (V := V) y) := SD.noneC (some y) none
    cases h with
    | noneC kp val =>
      refine SD.someC kp val [insertNode (NodeBuilder.new y) k' v] (by simp) ?_
      intro c hc
      rcases List.mem_singleton.mp hc with rfl
      exact ih _ v hnewSD
    | someC kp val l hp hm =>
      show SD (insertNode (NodeBuilder.mk kp val (some l)) (y :: k') v)
      cases hf : l.find? (fun c => decide (c.key_part = some y)) with
      | some c =>
        have hckp : c.key_part = some y := by
          have := List.find?_some hf; simpa using this
        have hc' : (insertNode c k' v).key_part = some y := by
          rw [insertNode_key_part, hckp]
        have e1 : insertNode (NodeBuilder.mk kp val (some l)) (y :: k') v
            = NodeBuilder.mk kp val (some (setFirstMatch y (insertNode c k' v) l)) := by
          simp [insertNode, hf]
        rw [e1]
        refine SD.someC kp val _ (pairwise_setFirstMatch hc' hp) ?_
        intro b hb
        rcases mem_setFirstMatch hb with rfl | hb
        · exact ih _ v (hm c (List.mem_of_find?_eq_some hf))
        · exact hm b hb
      | none =>
        have e1 : insertNode (NodeBuilder.mk kp val (some l)) (y :: k') v
            = NodeBuilder.mk kp val (some (l ++ [insertNode (NodeBuilder.new y) k' v])) := by
          simp [insertNode, hf]
        rw [e1]
        have hno : ∀ b ∈ l, ¬ (b.key_part = some y) := by
          intro b hb
          have := List.find?_eq_none.mp hf b hb
          simpa using this
        refine SD.someC kp val _ ?_ ?_
        · refine List.pairwise_append.mpr ⟨hp, by simp, ?_⟩
          intro a hal b hbl
          rcases List.mem_singleton.mp hbl with rfl
          rw [insertNode_key_part]
          show a.key_part ≠ (NodeBuilder.new (V := V) y).key_part
          intro hcontra
          exact hno a hal (by simpa [NodeBuilder.new] using hcontra)
        · intro b hb
          rcases List.mem_append.mp hb with hb | hb
          · exact hm b hb
          · rcases List.mem_singleton.mp hb with rfl
            exact ih _ v hnewSD

theorem SD_new_root : SD (PrefixTreeMapBuilder.new (E := E) (W := W) (V := V)).root :=
  SD.noneC none none

theorem length_filter_key_le_one {cs : List (NodeBuilder E W V)} (x : KeyPart E W)
    (hp : List.Pairwise (fun a b => a.key_part ≠ b.key_part) cs) :
    (cs.filter (fun c => decide (c.key_part = some x))).length ≤ 1 := by
  induction cs with
  | nil => simp
  | cons a as ih =>
    rcases List.pairwise_cons.mp hp with ⟨ha, has⟩
    by_cases hax : a.key_part = some x
    · rw [List.filter_cons, if_pos (by simpa using hax)]
      have : as.filter (fun c => decide (c.key_part = some x)) = [] := by
        rw [List.filter_eq_nil_iff]
        intro b hb
        simp only [decide_eq_true_eq]
        intro hbx
        exact ha b hb (by rw [hax, hbx])
      simp [this]
    · rw [List.filter_cons, if_neg (by simpa using hax)]
      exact ih has

theorem nodesAt_length_le_one (p : List (KeyPart E W)) :
    ∀ (t : NodeBuilder E W V), SD t → (nodesAt t p).length ≤ 1 := by
  induction p with
  | nil => intro t _; simp [nodesAt]
  | cons x p' ih =>
    intro t h
    cases h with
    | noneC kp val => simp [nodesAt]
    | someC kp val l hp hm =>
      show (nodesAt (NodeBuilder.mk kp val (some l)) (x :: p')).length ≤ 1
      have e1 : nodesAt (NodeBuilder.mk kp val (some l)) (x :: p')
          = (l.filter (fun c => decide (c.key_part = some x))).flatMap
              (fun c => nodesAt c p') := by
        simp [nodesAt]
      rw [e1]
      have hle := length_filter_key_le_one (V := V) x hp
      cases hfl : l.filter (fun c => decide (c.key_part = some x)) with
      | nil => simp
      | cons c rest =>
        rw [hfl] at hle
        cases rest with
        | cons d ds => simp at hle
        | nil =>
          simp only [List.flatMap_cons, List.flatMap_nil, List.append_nil]
          have hcmem : c ∈ l := (List.mem_filter.mp (hfl ▸ List.mem_cons_self c [])).1
          exact ih c (hm c hcmem)

theorem nodesAt_ne_nil_of_findNode (p : List (KeyPart E W)) :
    ∀ (t : NodeBuilder E W V), (findNode t p).isSome = true → nodesAt t p ≠ [] := by
  induction p with
  | nil => intro t _; simp [nodesAt]
  | cons x p' ih =>
    intro t h
    cases t with | mk kp val cso =>
    cases cso with
    | none => simp [findNode] at h
    | some cs =>
      cases hf : cs.find? (fun c => decide (c.key_part = some x)) with
      | none => rw [show findNode (NodeBuilder.mk kp val (some cs)) (x :: p')
          = none by simp [findNode, hf]] at h; simp at h
      | some c =>
        have hrec : (findNode c p').isSome = true := by
          rw [show findNode (NodeBuilder.mk kp val (some cs)) (x :: p')
            = findNode c p' by simp [findNode, hf]] at h
          exact h
        have hcp : decide (c.key_part = some x) = true := by
          have h0 := List.find?_some hf
          simpa using h0
        have hcf : c ∈ cs.filter (fun a => decide (a.key_part = some x)) :=
          List.mem_filter.mpr ⟨List.mem_of_find?_eq_some hf, hcp⟩
        rcases List.exists_mem_of_ne_nil _ (ih c hrec) with ⟨el, hel⟩
        intro hcontra
        have : el ∈ nodesAt (NodeBuilder.mk kp val (some cs)) (x :: p') := by
          have e1 : nodesAt (NodeBuilder.mk kp val (some cs)) (x :: p')
              = (cs.filter (fun a => decide (a.key_part = some x))).flatMap
                  (fun a => nodesAt a p') := by
            simp [nodesAt]
          rw [e1]
          exact List.mem_flatMap.mpr ⟨c, hcf, hel⟩
        rw [hcontra] at this
        simp at this

theorem nodesAt_length_eq_one {t : NodeBuilder E W V} {p : List (KeyPart E W)}
    (hsd : SD t) (h : (findNode t p).isSome = true) : (nodesAt t p).length = 1 := by
  have h1 := nodesAt_length_le_one p t hsd
  have h2 : (nodesAt t p).length ≠ 0 := by
    intro hc
    exact nodesAt_ne_nil_of_findNode p t h (List.length_eq_zero.mp hc)
  omega

end Invariants

section RootKeyInv

variable [DecidableEq E] [DecidableEq W]

/-- Every non-root node of the construction tree carries a key part:
`key_part` is `None` if and only if the node is the tree root (§3).
This predicate states the descendant half (all children, recursively,
have `some` key part); the root half is stated on the builder. -/
inductive ChildrenKeyed : NodeBuilder E W V → Prop where
  | noneC : ∀ (kp : Option (KeyPart E W)) (v : Option V), ChildrenKeyed (.mk kp v none)
  | someC : ∀ (kp : Option (KeyPart E W)) (v : Option V) (l : List (NodeBuilder E W V)),
      (∀ c ∈ l, (c.key_part).isSome = true) →
      (∀ c ∈ l, ChildrenKeyed c) → ChildrenKeyed (.mk kp v (some l))

theorem ChildrenKeyed_insertNode (k : List (KeyPart E W)) :
    ∀ (t : NodeBuilder E W V) (v : V), ChildrenKeyed t → ChildrenKeyed (insertNode t k v) := by
  induction k with
  | nil =>
    intro t v h
    cases h with
    | noneC kp val => exact ChildrenKeyed.noneC kp (some v)
    | someC kp val l hk hm => exact ChildrenKeyed.someC kp (some v) l hk hm
  | cons y k' ih =>
    intro t v h
    have hnew : ChildrenKeyed (NodeBuilder.new (V := V) y) := ChildrenKeyed.noneC (some y) none
    have hnewkp : ((insertNode (NodeBuilder.new (V := V) y) k' v).key_part).isSome = true := by
      rw [insertNode_key_part]; rfl
    cases h with
    | noneC kp val =>
      refine ChildrenKeyed.someC kp val [insertNode (NodeBuilder.new y) k' v] ?_ ?_
      · intro c hc; rcases List.mem_singleton.mp hc with rfl; exact hnewkp
      · intro c hc; rcases List.mem_singleton.mp hc with rfl; exact ih _ v hnew
    | someC kp val l hk hm =>
      show ChildrenKeyed (insertNode (NodeBuilder.mk kp val (some l)) (y :: k') v)
      cases hf : l.find? (fun c => decide (c.key_part = some y)) with
      | some c =>
        have hcmem := List.mem_of_find?_eq_some hf
        have hckp : c.key_part = some y := by
          have h0 := List.find?_some hf; simpa using h0
        have e1 : insertNode (NodeBuilder.mk kp val (some l)) (y :: k') v
            = NodeBuilder.mk kp val (some (setFirstMatch y (insertNode c k' v) l)) := by
          simp [insertNode, hf]
        rw [e1]
        refine ChildrenKeyed.someC kp val _ ?_ ?_
        · intro b hb
          rcases mem_setFirstMatch hb with rfl | hb
          · rw [insertNode_key_part, hckp]; rfl
          · exact hk b hb
        · intro b hb
          rcases mem_setFirstMatch hb with rfl | hb
          · exact ih _ v (hm c hcmem)
          · exact hm b hb
      | none =>
        have e1 : insertNode (NodeBuilder.mk kp val (some l)) (y :: k') v
            = NodeBuilder.mk kp val (some (l ++ [insertNode (NodeBuilder.new y) k' v])) := by
          simp [insertNode, hf]
        rw [e1]
        refine ChildrenKeyed.someC kp val _ ?_ ?_
        · intro b hb
          rcases List.mem_append.mp hb with hb | hb
          · exact hk b hb
          · rcases List.mem_singleton.mp hb with rfl; exact hnewkp
        · intro b hb
          rcases List.mem_append.mp hb with hb | hb
          · exact hm b hb
          · rcases List.mem_singleton.mp hb with rfl; exact ih _ v hnew

/-- Builder-level root key invariant: the root's key part is absent and
every non-root node's key part is present. -/
def RootKeyInv (b : PrefixTreeMapBuilder E W V) : Prop :=
  b.root.key_part = none ∧ ChildrenKeyed b.root

end RootKeyInv

/-- Modelled from the spec: the finished node
(`Node`, `prefix_tree_map.rs`, not present under `src/`): "Finished Node
`{key_part: Option<KeyPart>, value: Option<V>, children:
Option<OrderedSequence<Node>>}`" (§3); field names as used by
`node_builder_to_node` (builder.rs lines 125-129). -/
inductive Node (E W V : Type) : Type where
  | mk (key_part : Option (KeyPart E W)) (value : Option V)
      (children : Option (List (Node E W V)))

namespace Node

variable {E W V : Type}

def key_part : Node E W V → Option (KeyPart E W)
  | .mk kp _ _ => kp

def value : Node E W V → Option V
  | .mk _ v _ => v

def children : Node E W V → Option (List (Node E W V))
  | .mk _ _ cs => cs

@[simp] theorem finKeyPart_mk (kp : Option (KeyPart E W)) (v : Option V)
    (cs : Option (List (Node E W V))) : (Node.mk kp v cs).key_part = kp := rfl

@[simp] theorem finValue_mk (kp : Option (KeyPart E W)) (v : Option V)
    (cs : Option (List (Node E W V))) : (Node.mk kp v cs).value = v := rfl

@[simp] theorem finChildren_mk (kp : Option (KeyPart E W)) (v : Option V)
    (cs : Option (List (Node E W V))) : (Node.mk kp v cs).children = cs := rfl

end Node

/-- Modelled from the spec: the finished tree
(`PrefixTreeMap`, `prefix_tree_map.rs`, not present under `src/`): the
root finished node paired with the computed maximum wildcard depth, as
assembled by `build` (builder.rs lines 105-110). -/
structure PrefixTreeMap (E W V : Type) : Type where
  root : Node E W V
  max_wildcard_depth : Nat

/-- The comparison `impl Ord for NodeBuilder` (builder.rs lines 184-192)
sorts by, as a boolean `≤`: the derived `Option` order on `key_part`. -/
def nbLe [LinearOrder E] [LinearOrder W] (a b : NodeBuilder E W V) : Bool :=
  optKpLe a.key_part b.key_part

/-- `BinaryHeap::into_sorted_vec` (builder.rs line 119): the children in
ascending `Ord` order. -/
def sortChildren [LinearOrder E] [LinearOrder W] (cs : List (NodeBuilder E W V)) :
    List (NodeBuilder E W V) :=
  cs.mergeSort nbLe

/-- `PrefixTreeMapBuilder::node_builder_to_node` (builder.rs lines
112-130): recursively convert a construction node, draining the
children heap in sorted order.  (The `Rc::try_unwrap` unique-ownership
check of line 113 is the subject of the arena model below; here the
single-owner tree is given directly.) -/
def node_builder_to_node [LinearOrder E] [LinearOrder W] :
    NodeBuilder E W V → Node E W V
  | .mk kp v none => .mk kp v none
  | .mk kp v (some cs) =>
      .mk kp v (some (((sortChildren cs).attach).map (fun c => node_builder_to_node c.1)))
termination_by t => sizeOf t
decreasing_by
  have h1 : c.1 ∈ cs := (List.mergeSort_perm cs nbLe).subset c.2
  have h2 := List.sizeOf_lt_of_mem h1
  simp only [NodeBuilder.mk.sizeOf_spec, Option.some.sizeOf_spec]
  omega

/-- `PrefixTreeMapBuilder::build` (builder.rs lines 105-110). -/
def PrefixTreeMapBuilder.build [LinearOrder E] [LinearOrder W]
    (b : PrefixTreeMapBuilder E W V) : PrefixTreeMap E W V :=
  { root := node_builder_to_node b.root,
    max_wildcard_depth := b.max_wildcard_depth }

section SortLemmas

variable [LinearOrder E] [LinearOrder W]

theorem leB_trans (a b c : KeyPart E W) :
    KeyPart.leB a b = true → KeyPart.leB b c = true → KeyPart.leB a c = true := by
  cases a <;> cases b <;> cases c <;>
    simp [KeyPart.leB] <;> exact fun h1 h2 => le_trans h1 h2

theorem leB_total (a b : KeyPart E W) :
    (KeyPart.leB a b || KeyPart.leB b a) = true := by
  cases a <;> cases b <;> simp [KeyPart.leB] <;> exact le_total _ _

theorem optKpLe_trans (a b c : Option (KeyPart E W)) :
    optKpLe a b = true → optKpLe b c = true → optKpLe a c = true := by
  cases a <;> cases b <;> cases c <;> simp [optKpLe] <;> exact leB_trans _ _ _

theorem optKpLe_total (a b : Option (KeyPart E W)) :
    (optKpLe a b || optKpLe b a) = true := by
  cases a <;> cases b <;> simp [optKpLe] <;> exact (by simpa using leB_total _ _)

theorem nbLe_trans (a b c : NodeBuilder E W V) :
    nbLe a b = true → nbLe b c = true → nbLe a c = true :=
  optKpLe_trans _ _ _

theorem nbLe_total (a b : NodeBuilder E W V) : (nbLe a b || nbLe b a) = true :=
  optKpLe_total _ _

theorem node_builder_to_node_none (kp : Option (KeyPart E W)) (v : Option V) :
    node_builder_to_node (NodeBuilder.mk (V := V) kp v none) = Node.mk kp v none := by
  rw [node_builder_to_node]

theorem node_builder_to_node_some (kp : Option (KeyPart E W)) (v : Option V)
    (cs : List (NodeBuilder E W V)) :
    node_builder_to_node (NodeBuilder.mk kp v (some cs))
      = Node.mk kp v (some ((sortChildren cs).map node_builder_to_node)) := by
  rw [node_builder_to_node]
  rw [List.attach_map_val (sortChildren cs) node_builder_to_node]

theorem node_builder_to_node_key_part (t : NodeBuilder E W V) :
    (node_builder_to_node t).key_part = t.key_part := by
  cases t with | mk kp v cso =>
  cases cso with
  | none => rw [node_builder_to_node_none]; rfl
  | some cs => rw [node_builder_to_node_some]; rfl

theorem node_builder_to_node_value (t : NodeBuilder E W V) :
    (node_builder_to_node t).value = t.value := by
  cases t with | mk kp v cso =>
  cases cso with
  | none => rw [node_builder_to_node_none]; rfl
  | some cs => rw [node_builder_to_node_some]; rfl

end SortLemmas

section Claim1Core

variable [LinearOrder E] [LinearOrder W]

/-- The fixed Key-Part priority policy on finished nodes: `a.prioGe b`
holds when `a` ranks at least as high as `b`.  Priority is the dual of
the `Ord` used by `into_sorted_vec`: the highest-priority key part is
the least in the sort order (here, per the policy fixed in
`KeyPart.leB`: `Exact` outranks `Wildcard`, and within a category a
smaller payload outranks a larger one), so the ascending sorted child
vector is exactly the descending-priority sequence. -/
def Node.prioGe (a b : Node E W V) : Prop :=
  optKpLe a.key_part b.key_part = true

/-- Every node of a finished tree has its children sequence in
descending priority order (non-increasing under `Node.prioGe`),
recursively. -/
inductive DescSorted : Node E W V → Prop where
  | noneC : ∀ (kp : Option (KeyPart E W)) (v : Option V), DescSorted (.mk kp v none)
  | someC : ∀ (kp : Option (KeyPart E W)) (v : Option V) (l : List (Node E W V)),
      List.Chain' Node.prioGe l →
      (∀ c ∈ l, DescSorted c) → DescSorted (.mk kp v (some l))

theorem descSorted_toNode_aux :
    ∀ (n : Nat) (t : NodeBuilder E W V), sizeOf t ≤ n →
      DescSorted (node_builder_to_node t) := by
  intro n
  induction n with
  | zero =>
    intro t h
    cases t with | mk kp v cso =>
    simp only [NodeBuilder.mk.sizeOf_spec] at h
    omega
  | succ n ih =>
    intro t h
    cases t with | mk kp val cso =>
    cases cso with
    | none =>
      rw [node_builder_to_node_none]
      exact DescSorted.noneC kp val
    | some cs =>
      rw [node_builder_to_node_some]
      refine DescSorted.someC kp val _ ?_ ?_
      · have hs := @List.sorted_mergeSort (NodeBuilder E W V) nbLe
          (fun a b c => nbLe_trans a b c) (fun a b => nbLe_total a b) cs
        have hmap : List.Pairwise
            (fun a b : Node E W V => optKpLe a.key_part b.key_part = true)
            ((sortChildren cs).map node_builder_to_node) := by
          rw [List.pairwise_map]
          refine hs.imp ?_
          intro a b hab
          rw [node_builder_to_node_key_part, node_builder_to_node_key_part]
          exact hab
        exact hmap.chain'
      · intro c hc
        rcases List.mem_map.mp hc with ⟨c0, hc0, rfl⟩
        have hmem : c0 ∈ cs := (List.mergeSort_perm cs nbLe).subset hc0
        have hlt := List.sizeOf_lt_of_mem hmem
        apply ih
        simp only [NodeBuilder.mk.sizeOf_spec, Option.some.sizeOf_spec] at h
        omega

theorem descSorted_toNode (t : NodeBuilder E W V) :
    DescSorted (node_builder_to_node t) :=
  descSorted_toNode_aux (sizeOf t) t le_rfl

end Claim1Core

section Claim6Core

variable [DecidableEq E] [DecidableEq W]

/-- The same path walk as `findNode`, on finished nodes. -/
def findNodeN : Node E W V → List (KeyPart E W) → Option (Node E W V)
  | t, [] => some t
  | t, kp :: rest =>
    match t.children with
    | none => none
    | some cs =>
      match cs.find? (fun c => decide (c.key_part = some kp)) with
      | some c => findNodeN c rest
      | none => none

/-- Path-local observation of a finished tree. -/
def obsN (t : Node E W V) (p : List (KeyPart E W)) :
    Option (Option (KeyPart E W) × Option V) :=
  (findNodeN t p).map (fun n => (n.key_part, n.value))

/-- When at most one element of a list satisfies the search key (because
sibling key parts are pairwise distinct), `find?` is invariant under
permutation of the list. -/
theorem find?_perm_of_pairwise_ne {cs l : List (NodeBuilder E W V)} {x : KeyPart E W}
    (hp : List.Pairwise (fun a b => a.key_part ≠ b.key_part) cs)
    (hperm : l.Perm cs) :
    l.find? (fun c => decide (c.key_part = some x))
      = cs.find? (fun c => decide (c.key_part = some x)) := by
  cases h2 : cs.find? (fun c => decide (c.key_part = some x)) with
  | none =>
    rw [List.find?_eq_none] at h2 ⊢
    intro b hb
    exact h2 b (hperm.subset hb)
  | some c =>
    have hcmem : c ∈ cs := List.mem_of_find?_eq_some h2
    have hckp : c.key_part = some x := by
      have h0 := List.find?_some h2; simpa using h0
    cases h1 : l.find? (fun c => decide (c.key_part = some x)) with
    | none =>
      rw [List.find?_eq_none] at h1
      have := h1 c (hperm.symm.subset hcmem)
      simp [hckp] at this
    | some d =>
      have hdmem : d ∈ cs := hperm.subset (List.mem_of_find?_eq_some h1)
      have hdkp : d.key_part = some x := by
        have h0 := List.find?_some h1; simpa using h0
      have hsymm : Symmetric (fun a b : NodeBuilder E W V => a.key_part ≠ b.key_part) := by
        intro a b h hc
        exact h hc.symm
      by_cases hdc : d = c
      · rw [hdc]
      · exact absurd (hdkp.trans hckp.symm) (hp.forall hsymm hdmem hcmem hdc)

/-- Finished-tree lookups agree with construction-tree lookups, path by
path, for sibling-distinct trees: `node_builder_to_node` only reorders
children and preserves key parts and values. -/
theorem obsN_toNode_aux [LinearOrder E] [LinearOrder W] :
    ∀ (n : Nat) (t : NodeBuilder E W V), sizeOf t ≤ n → SD t →
      ∀ (p : List (KeyPart E W)), obsN (node_builder_to_node t) p = obs t p := by
  intro n
  induction n with
  | zero =>
    intro t h
    cases t with | mk kp v cso =>
    simp only [NodeBuilder.mk.sizeOf_spec] at h
    omega
  | succ n ih =>
    intro t h hsd p
    cases t with | mk kp val cso =>
    cases p with
    | nil =>
      rw [obs_nil]
      show (findNodeN (node_builder_to_node (NodeBuilder.mk kp val cso)) []).map _ = _
      rw [show findNodeN (node_builder_to_node (NodeBuilder.mk kp val cso)) []
        = some (node_builder_to_node (NodeBuilder.mk kp val cso)) from rfl]
      simp [node_builder_to_node_key_part, node_builder_to_node_value]
    | cons x p' =>
      cases cso with
      | none =>
        rw [node_builder_to_node_none, obs_cons_none]
        rfl
      | some cs =>
        rw [node_builder_to_node_some]
        cases hsd with
        | someC kp val cs hp hm =>
        have hperm : (sortChildren cs).Perm cs := List.mergeSort_perm cs nbLe
        have hpred : (fun c : Node E W V => decide (c.key_part = some x)) ∘ node_builder_to_node
            = (fun c : NodeBuilder E W V => decide (c.key_part = some x)) := by
          funext c
          simp [Function.comp, node_builder_to_node_key_part]
        have hfindmap : ((sortChildren cs).map node_builder_to_node).find?
              (fun c => decide (c.key_part = some x))
            = ((sortChildren cs).find?
                (fun c => decide (c.key_part = some x))).map node_builder_to_node := by
          rw [List.find?_map, hpred]
        have hfind : (sortChildren cs).find? (fun c => decide (c.key_part = some x))
            = cs.find? (fun c => decide (c.key_part = some x)) :=
          find?_perm_of_pairwise_ne hp hperm
        cases hf : cs.find? (fun c => decide (c.key_part = some x)) with
        | none =>
          rw [obs_cons_notfound kp val p' hf]
          show (findNodeN (Node.mk kp val _) (x :: p')).map _ = none
          have : findNodeN (Node.mk kp val
              (some ((sortChildren cs).map node_builder_to_node))) (x :: p') = none := by
            show (match ((sortChildren cs).map node_builder_to_node).find?
                (fun c => decide (c.key_part = some x)) with
              | some c => findNodeN c p'
              | none => none) = none
            rw [hfindmap, hfind, hf]
            rfl
          rw [this]
          rfl
        | some c =>
          rw [obs_cons_found kp val p' hf]
          have hcmem : c ∈ cs := List.mem_of_find?_eq_some hf
          have hstep : findNodeN (Node.mk kp val
              (some ((sortChildren cs).map node_builder_to_node))) (x :: p')
              = findNodeN (node_builder_to_node c) p' := by
            show (match ((sortChildren cs).map node_builder_to_node).find?
                (fun a => decide (a.key_part = some x)) with
              | some a => findNodeN a p'
              | none => none) = _
            rw [hfindmap, hfind, hf]
            rfl
          show (findNodeN (Node.mk kp val _) (x :: p')).map _ = _
          rw [hstep]
          have hsz : sizeOf c ≤ n := by
            have hlt := List.sizeOf_lt_of_mem hcmem
            simp only [NodeBuilder.mk.sizeOf_spec, Option.some.sizeOf_spec] at h
            omega
          exact ih c hsz (hm c hcmem) p'

theorem obsN_toNode [LinearOrder E] [LinearOrder W] (t : NodeBuilder E W V)
    (hsd : SD t) (p : List (KeyPart E W)) :
    obsN (node_builder_to_node t) p = obs t p :=
  obsN_toNode_aux (sizeOf t) t le_rfl hsd p

end Claim6Core

section Claim4Core

variable [DecidableEq E] [DecidableEq W]

/-- Fold a batch of `insert` calls over a builder, in list order. -/
def foldInserts (b : PrefixTreeMapBuilder E W V)
    (ops : List (List (KeyPart E W) × V)) : PrefixTreeMapBuilder E W V :=
  ops.foldl (fun b op => b.insert op.1 op.2) b

/-- The observation at a fixed path after a batch of inserts is a fold
of the pointwise transformers `obsF`, with the (invariant) root key part
as parameter. -/
theorem obs_foldInserts (ops : List (List (KeyPart E W) × V)) :
    ∀ (b : PrefixTreeMapBuilder E W V) (p : List (KeyPart E W)),
    obs (foldInserts b ops).root p
      = ops.foldl (fun o op => obsF b.root.key_part op.1 op.2 p o) (obs b.root p) := by
  induction ops with
  | nil => intro b p; rfl
  | cons op rest ih =>
    intro b p
    show obs (foldInserts (b.insert op.1 op.2) rest).root p = _
    rw [ih (b.insert op.1 op.2) p]
    show _ = rest.foldl _ (obsF b.root.key_part op.1 op.2 p (obs b.root p))
    rw [show (b.insert op.1 op.2).root = insertNode b.root op.1 op.2 from rfl,
      obs_insertNode, insertNode_key_part]

/-- `Option.bind` computation used by the commutation argument. -/
theorem bind_snd_some (a : Option (KeyPart E W)) (b : Option V) :
    (some (a, b)).bind (fun x : Option (KeyPart E W) × Option V => x.2) = b := rfl

/-- Two pointwise insert transformers at distinct keys commute. -/
theorem obsF_comm (rk : Option (KeyPart E W)) (k1 k2 : List (KeyPart E W))
    (v1 v2 : V) (p : List (KeyPart E W)) (hk : k1 ≠ k2)
    (o : Option (Option (KeyPart E W) × Option V)) :
    obsF rk k2 v2 p (obsF rk k1 v1 p o) = obsF rk k1 v1 p (obsF rk k2 v2 p o) := by
  have hk2 : k2 ≠ k1 := Ne.symm hk
  by_cases h1 : p = k1
  · have h2 : ¬ p = k2 := fun hc => hk (h1 ▸ hc)
    by_cases f2 : isFront p k2
    · simp [obsF, h1, h2, f2, hk, hk2]
    · simp [obsF, h1, h2, f2, hk, hk2]
  · by_cases h2 : p = k2
    · by_cases f1 : isFront p k1
      · simp [obsF, h1, h2, f1, hk, hk2]
      · simp [obsF, h1, h2, f1, hk, hk2]
    · by_cases f1 : isFront p k1 <;> by_cases f2 : isFront p k2 <;>
        simp [obsF, h1, h2, f1, f2]

/-- Order-independence of batched inserts with pairwise distinct keys:
the resulting construction trees agree at every path observation. -/
theorem obs_foldInserts_perm (b : PrefixTreeMapBuilder E W V)
    (ops1 ops2 : List (List (KeyPart E W) × V))
    (hperm : ops1.Perm ops2)
    (hdist : List.Pairwise (fun a b => a.1 ≠ b.1) ops1)
    (p : List (KeyPart E W)) :
    obs (foldInserts b ops1).root p = obs (foldInserts b ops2).root p := by
  rw [obs_foldInserts, obs_foldInserts]
  apply hperm.foldl_eq'
  intro x hx y hy z
  by_cases hxy : x = y
  · rw [hxy]
  · have hsymm : Symmetric
        (fun a b : List (KeyPart E W) × V => a.1 ≠ b.1) := by
      intro a b h hc
      exact h hc.symm
    have hk : x.1 ≠ y.1 := hdist.forall hsymm hx hy hxy
    exact obsF_comm b.root.key_part x.1 y.1 x.2 y.2 p hk z

end Claim4Core

/-!
## Arena semantics with explicit `Rc` reference counts

The pure tree above abstracts away the sharing that `Rc` makes
possible.  The derived `Clone` of `PrefixTreeMapBuilder` (builder.rs
line 12) clones the field `root: Rc<NodeBuilder>`, i.e. it copies the
*pointer* and increments the strong count: the cloned builder shares
the very same construction tree.  To settle the claims about
`Rc::try_unwrap` in `node_builder_to_node` (line 113) and about
`clone`-aliasing, we model the process heap as an arena of construction
nodes addressed by allocation index, a list of live builders (each a
root index plus its `max_wildcard_depth` copy), and derive the `Rc`
strong counts from the stored references.  Between public API calls the
only live handles are the builders' root pointers and the entries of
the children heaps (the cursor created by `insert` is dropped before
`insert` returns), so the strong count of a node is exactly:
(number of builders whose root is the node) + (number of occurrences of
the node in children lists).
-/

/-- One construction node in the arena model; `children` holds arena
indices of the child nodes (the `Rc`s stored in the `BinaryHeap`). -/
structure CNode (E W V : Type) : Type where
  key_part : Option (KeyPart E W)
  value : Option V
  children : Option (List Nat)

def dfltCNode : CNode E W V := ⟨none, none, none⟩

/-- One live `PrefixTreeMapBuilder` value: its root pointer (arena
index) and its own `max_wildcard_depth` field. -/
structure BuilderRef : Type where
  root : Nat
  max_wildcard_depth : Nat

/-- The process state: the arena of construction nodes and the live
builders. -/
structure HState (E W V : Type) : Type where
  arena : List (CNode E W V)
  builders : List BuilderRef

def emptyHState : HState E W V := ⟨[], []⟩

/-- `PrefixTreeMapBuilder::new` in the arena model: allocate a fresh
root node (key part, value, children all absent) and a builder pointing
at it. -/
def hNew (S : HState E W V) : HState E W V :=
  { arena := S.arena ++ [⟨none, none, none⟩],
    builders := S.builders ++ [⟨S.arena.length, 0⟩] }

/-- The derived `Clone` on `PrefixTreeMapBuilder`: `Rc::clone` of the
root pointer (the construction tree is shared, not copied) and a copy
of `max_wildcard_depth`. -/
def hClone (S : HState E W V) (b : Nat) : HState E W V :=
  { arena := S.arena,
    builders := S.builders ++ [S.builders.getD b ⟨0, 0⟩] }

/-- The cursor walk of `insert` (builder.rs lines 50-92) in the arena
model: returns the updated arena and the arena index of the final
cursor node.  New nodes are appended to the arena; a new child's index
is pushed into the parent's children list. -/
def hInsertWalk [DecidableEq E] [DecidableEq W] :
    List (CNode E W V) → Nat → List (KeyPart E W) → List (CNode E W V) × Nat
  | arena, cur, [] => (arena, cur)
  | arena, cur, kp :: rest =>
    let n := arena.getD cur dfltCNode
    match n.children with
    | none =>
      let newId := arena.length
      let arena' := (arena.set cur ⟨n.key_part, n.value, some [newId]⟩)
        ++ [⟨some kp, none, none⟩]
      hInsertWalk arena' newId rest
    | some ids =>
      match ids.find? (fun j => decide ((arena.getD j dfltCNode).key_part = some kp)) with
      | some j => hInsertWalk arena j rest
      | none =>
        let newId := arena.length
        let arena' := (arena.set cur ⟨n.key_part, n.value, some (ids ++ [newId])⟩)
          ++ [⟨some kp, none, none⟩]
        hInsertWalk arena' newId rest

/-- `PrefixTreeMapBuilder::insert` in the arena model: walk/extend the
shared tree from the builder's root, set the final cursor's value, and
raise the builder's own `max_wildcard_depth`. -/
def hInsert [DecidableEq E] [DecidableEq W] (S : HState E W V) (b : Nat)
    (key : List (KeyPart E W)) (v : V) : HState E W V :=
  let bu := S.builders.getD b ⟨0, 0⟩
  let r := hInsertWalk S.arena bu.root key
  let n := r.1.getD r.2 dfltCNode
  { arena := r.1.set r.2 ⟨n.key_part, some v, n.children⟩,
    builders := S.builders.set b ⟨bu.root, max bu.max_wildcard_depth (countWild key)⟩ }

/-- `PrefixTreeMapBuilder::insert_exact` in the arena model. -/
def hInsertExact [DecidableEq E] [DecidableEq W] (S : HState E W V) (b : Nat)
    (key : List E) (v : V) : HState E W V :=
  hInsert S b (key.map KeyPart.Exact) v

/-- Public-API call trace (the mutating calls; `build` is the final
observation, modelled by `hBuild` below). -/
inductive ApiCall (E W V : Type) : Type where
  | newBuilder : ApiCall E W V
  | insert (b : Nat) (key : List (KeyPart E W)) (v : V) : ApiCall E W V
  | insertExact (b : Nat) (key : List E) (v : V) : ApiCall E W V
  | clone (b : Nat) : ApiCall E W V

def stepCall [DecidableEq E] [DecidableEq W] (S : HState E W V) :
    ApiCall E W V → HState E W V
  | .newBuilder => hNew S
  | .insert b key v => hInsert S b key v
  | .insertExact b key v => hInsertExact S b key v
  | .clone b => hClone S b

def runCalls [DecidableEq E] [DecidableEq W] (calls : List (ApiCall E W V)) :
    HState E W V :=
  calls.foldl stepCall emptyHState

/-- Value lookup through a shared root pointer (the observation used
for the `clone`-sharing claim): walk the arena along a path of key
parts and return the value slot at the end. -/
def valueAtH [DecidableEq E] [DecidableEq W] :
    List (CNode E W V) → Nat → List (KeyPart E W) → Option V
  | arena, i, [] => (arena.getD i dfltCNode).value
  | arena, i, kp :: rest =>
    match (arena.getD i dfltCNode).children with
    | none => none
    | some ids =>
      match ids.find? (fun j => decide ((arena.getD j dfltCNode).key_part = some kp)) with
      | some j => valueAtH arena j rest
      | none => none

/-- Number of stored references to node `i` from children lists of
nodes that have not yet been consumed by the `build` recursion. -/
def childOcc (arena : List (CNode E W V)) (consumed : List Nat) (i : Nat) : Nat :=
  ((List.range arena.length).filter (fun j => decide (¬ j ∈ consumed))).foldl
    (fun acc j => acc + (((arena.getD j dfltCNode).children).getD []).count i) 0

/-- The `Ord` of `NodeBuilder` on arena indices. -/
def idLe [LinearOrder E] [LinearOrder W] (arena : List (CNode E W V)) (i j : Nat) : Bool :=
  optKpLe (arena.getD i dfltCNode).key_part (arena.getD j dfltCNode).key_part

/-- `BinaryHeap::into_sorted_vec` on a children list of arena indices. -/
def sortIds [LinearOrder E] [LinearOrder W] (arena : List (CNode E W V))
    (ids : List Nat) : List Nat :=
  ids.mergeSort (idLe arena)

/-- A step of the `build` recursion: converting one node, or converting
the drained, sorted children vector of an already-consumed node. -/
inductive BuildTask : Type where
  | node (consumed pending : List Nat) (i : Nat) : BuildTask
  | kids (consumed pending : List Nat) (cs : List Nat) : BuildTask

/-- `node_builder_to_node` (builder.rs lines 112-130) in the arena
model.  At each node, `Rc::try_unwrap` (line 113) succeeds iff the
strong count is exactly 1, i.e. iff the handle being consumed (the
parent's drained children-list slot, or the moved-in builder root at
the top) is the only remaining reference: no other builder roots the
node, no children list of a not-yet-consumed node stores it, and no
drained-but-not-yet-consumed sibling slot (`pending`) holds it.
Failure of the check is the `.unwrap()` panic, modelled as `none`.
While a child is being converted, the handles of its not-yet-consumed
right siblings (and of pending siblings further up the stack) are still
live in the drained vectors, so they are carried in `pending`.  `fuel`
bounds the total number of steps (exact on every state whose reachable
graph is a tree, for any bound above the work actually needed); it is
structural so that the function evaluates by reduction.  A `node` task
returns the singleton list of its converted node. -/
def buildRunH [LinearOrder E] [LinearOrder W] (arena : List (CNode E W V))
    (roots : List Nat) : Nat → BuildTask → Option (List (Node E W V) × List Nat)
  | 0, _ => none
  | fuel + 1, .node consumed pending i =>
    if roots.count i + childOcc arena consumed i + pending.count i ≠ 0 then none
    else
      let n := arena.getD i dfltCNode
      match n.children with
      | none => some ([⟨n.key_part, n.value, none⟩], i :: consumed)
      | some ids =>
        match buildRunH arena roots fuel
            (.kids (i :: consumed) pending (sortIds arena ids)) with
        | none => none
        | some (ns, consumed') => some ([⟨n.key_part, n.value, some ns⟩], consumed')
  | _ + 1, .kids consumed _ [] => some ([], consumed)
  | fuel + 1, .kids consumed pending (c :: rest) =>
    match buildRunH arena roots fuel (.node consumed (pending ++ rest) c) with
    | none => none
    | some (ns1, consumed') =>
      match buildRunH arena roots fuel (.kids consumed' pending rest) with
      | none => none
      | some (ns2, consumed'') => some (ns1 ++ ns2, consumed'')

/-- `PrefixTreeMapBuilder::build` (builder.rs lines 105-110) in the
arena model: the builder is moved into the call (so its own root handle
is the one consumed at the top of the recursion) and the finished tree
is produced, or `none` if some `Rc::try_unwrap` fails (the `.unwrap()`
panic of line 113). -/
def hBuild [LinearOrder E] [LinearOrder W]
    (S : HState E W V) (b : Nat) : Option (PrefixTreeMap E W V) :=
  let bu := S.builders.getD b ⟨0, 0⟩
  let roots := (S.builders.eraseIdx b).map (fun x => x.root)
  match buildRunH S.arena roots ((S.arena.length + 2) * (S.arena.length + 2))
      (.node [] [] bu.root) with
  | some ([n], _) => some ⟨n, bu.max_wildcard_depth⟩
  | _ => none

section Claim3Core

variable [DecidableEq E] [DecidableEq W]

/-- One public mutating call of the builder: `insert` or `insert_exact`. -/
inductive BatchOp (E W V : Type) : Type where
  | ins (key : List (KeyPart E W)) (v : V) : BatchOp E W V
  | insExact (key : List E) (v : V) : BatchOp E W V

def applyBatchOp (b : PrefixTreeMapBuilder E W V) : BatchOp E W V → PrefixTreeMapBuilder E W V
  | .ins key v => b.insert key v
  | .insExact key v => b.insert_exact key v

/-- The wildcard count of the key sequence actually inserted by a call. -/
def opWildCount : BatchOp E W V → Nat
  | .ins key _ => countWild key
  | .insExact key _ => countWild (key.map (KeyPart.Exact (W := W)))

def foldBatch (b : PrefixTreeMapBuilder E W V) (ops : List (BatchOp E W V)) :
    PrefixTreeMapBuilder E W V :=
  ops.foldl applyBatchOp b

theorem applyBatchOp_mwd (b : PrefixTreeMapBuilder E W V) (op : BatchOp E W V) :
    (applyBatchOp b op).max_wildcard_depth
      = max b.max_wildcard_depth (opWildCount op) := by
  cases op <;>
    simp [applyBatchOp, PrefixTreeMapBuilder.insert,
      PrefixTreeMapBuilder.insert_exact, opWildCount]

theorem foldBatch_mwd (ops : List (BatchOp E W V)) :
    ∀ (b : PrefixTreeMapBuilder E W V),
    (foldBatch b ops).max_wildcard_depth
      = max b.max_wildcard_depth ((ops.map opWildCount).foldr max 0) := by
  induction ops with
  | nil => intro b; simp [foldBatch]
  | cons op rest ih =>
    intro b
    show (foldBatch (applyBatchOp b op) rest).max_wildcard_depth = _
    rw [ih (applyBatchOp b op), applyBatchOp_mwd]
    simp [Nat.max_assoc]

theorem countWild_map_exact (key : List E) :
    countWild (key.map (KeyPart.Exact (W := W))) = 0 := by
  rw [countWild, List.countP_map]
  rw [List.countP_eq_zero]
  intro a _
  simp [Function.comp, KeyPart.is_wildcard]

end Claim3Core

/-- C1: For every finished tree produced by `build`, every node that has
children has its children sequence in descending Key-Part priority
order (category partition first, then payload order; priority is the
dual of the `Ord` used by `into_sorted_vec`), i.e. non-increasing under
the fixed priority policy — in particular for every node with at least
two children. -/
theorem claim1_child_ordering {E W V : Type} [LinearOrder E] [LinearOrder W]
    (b : PrefixTreeMapBuilder E W V) : DescSorted (b.build).root :=
  descSorted_toNode b.root

/-- C2: the claim that no public-API call sequence can make `build`
panic is FALSE on this code: the derived `Clone` of
`PrefixTreeMapBuilder` clones the `Rc` root pointer, so after
`let b2 = b.clone()`, `b.build()` reaches `Rc::try_unwrap` with strong
count 2 and the `.unwrap()` of builder.rs line 113 panics (modelled:
`hBuild` returns `none` on the trace `new; clone; build`).  By
contrast, without `clone` the single handle per node makes the unwrap
succeed (second conjunct: the same trace without the clone builds). -/
theorem claim2_clone_makes_build_panic :
    hBuild (runCalls (E := Nat) (W := Nat) (V := Nat)
      [ApiCall.newBuilder, ApiCall.clone 0]) 0 = none
    ∧ (hBuild (runCalls (E := Nat) (W := Nat) (V := Nat)
      [ApiCall.newBuilder]) 0).isSome = true := by
  constructor
  · rfl
  · rfl

/-- C3: after any finite sequence of `insert` / `insert_exact` calls on
a fresh builder, `max_wildcard_depth` equals the maximum over all
inserted key sequences of their wildcard-part count (`0` for the empty
batch, and every key inserted by `insert_exact` contributes `0`), and
the field never decreases across calls. -/
theorem claim3_wildcard_depth {E W V : Type} [DecidableEq E] [DecidableEq W] :
    (∀ (ops : List (BatchOp E W V)),
      (foldBatch PrefixTreeMapBuilder.new ops).max_wildcard_depth
        = (ops.map opWildCount).foldr max 0)
    ∧ (∀ (b : PrefixTreeMapBuilder E W V) (op : BatchOp E W V),
        b.max_wildcard_depth ≤ (applyBatchOp b op).max_wildcard_depth)
    ∧ (∀ (key : List E) (v : V), opWildCount (BatchOp.insExact (W := W) key v) = 0) := by
  refine ⟨?_, ?_, ?_⟩
  · intro ops
    rw [foldBatch_mwd]
    show max 0 _ = _
    exact Nat.zero_max _
  · intro b op
    rw [applyBatchOp_mwd]
    exact Nat.le_max_left _ _
  · intro key v
    exact countWild_map_exact key

section ObsConversions

variable [DecidableEq E] [DecidableEq W]

theorem isSome_obs (t : NodeBuilder E W V) (p : List (KeyPart E W)) :
    (obs t p).isSome = (findNode t p).isSome := by
  cases hf : findNode t p <;> simp [obs, hf]

theorem valAt_eq_obs_bind (t : NodeBuilder E W V) (p : List (KeyPart E W)) :
    (findNode t p).bind NodeBuilder.value
      = (obs t p).bind (fun x : Option (KeyPart E W) × Option V => x.2) := by
  cases hf : findNode t p <;> simp [obs, hf]

theorem obs_eq_some_map_value {t : NodeBuilder E W V} {p : List (KeyPart E W)}
    {a : Option (KeyPart E W)} {bv : Option V} (h : obs t p = some (a, bv)) :
    (findNode t p).map NodeBuilder.value = some bv := by
  cases hf : findNode t p with
  | none => rw [obs, hf] at h; simp at h
  | some n =>
    rw [obs, hf] at h
    simp at h
    simp [h.2]

theorem obs_insert_eq_at_key (t : NodeBuilder E W V) (k : List (KeyPart E W)) (v : V) :
    obs (insertNode t k v) k = some (kpForP t.key_part k, some v) := by
  rw [obs_insertNode]
  unfold obsF
  rw [if_pos rfl]

theorem obs_insert_isSome_of_front (t : NodeBuilder E W V) (k : List (KeyPart E W))
    (v : V) (p : List (KeyPart E W)) (h : isFront p k = true) :
    (obs (insertNode t k v) p).isSome = true := by
  rw [obs_insertNode]
  unfold obsF
  by_cases h1 : p = k
  · simp [h1]
  · simp [h1, h]

end ObsConversions

/-- C4: for any batch of `(key, value)` insertions with pairwise
distinct key sequences (including a path and a longer path extending
it), performing the `insert` calls in any order yields the same
construction tree up to children ordering: at every path the node
existence, key part and value slot agree. -/
theorem claim4_order_independence {E W V : Type} [DecidableEq E] [DecidableEq W]
    (b : PrefixTreeMapBuilder E W V) (ops1 ops2 : List (List (KeyPart E W) × V))
    (hperm : ops1.Perm ops2)
    (hdist : List.Pairwise (fun a b => a.1 ≠ b.1) ops1)
    (p : List (KeyPart E W)) :
    obs (foldInserts b ops1).root p = obs (foldInserts b ops2).root p
    ∧ (findNode (foldInserts b ops1).root p).isSome
      = (findNode (foldInserts b ops2).root p).isSome := by
  have h := obs_foldInserts_perm b ops1 ops2 hperm hdist p
  refine ⟨h, ?_⟩
  rw [← isSome_obs, ← isSome_obs, h]

/-- Witness for C4: a prefix inserted before or after its extension
gives the same observation. -/
theorem claim4_witness :
    (obs (foldInserts (PrefixTreeMapBuilder.new (E := Nat) (W := Nat) (V := Nat))
        [([KeyPart.Exact 1], 10), ([KeyPart.Exact 1, KeyPart.Wildcard 0], 20)]).root
        [KeyPart.Exact 1]
      = obs (foldInserts PrefixTreeMapBuilder.new
        [([KeyPart.Exact 1, KeyPart.Wildcard 0], 20), ([KeyPart.Exact 1], 10)]).root
        [KeyPart.Exact 1]) :=
  (claim4_order_independence PrefixTreeMapBuilder.new
    [([KeyPart.Exact 1], 10), ([KeyPart.Exact 1, KeyPart.Wildcard 0], 20)]
    [([KeyPart.Exact 1, KeyPart.Wildcard 0], 20), ([KeyPart.Exact 1], 10)]
    (by decide) (by decide) [KeyPart.Exact 1]).1

/-- C5: re-inserting a key path silently overwrites: after
`insert k v1; insert k v2` on a sibling-distinct builder there is
exactly one node at path `k`, its value is `v2`, and the second insert
creates no node along that path (every prefix of `k` holds the same
number of nodes as after the first insert).  (`insert` is total: no
error path exists.) -/
theorem claim5_overwrite {E W V : Type} [DecidableEq E] [DecidableEq W]
    (b : PrefixTreeMapBuilder E W V) (k : List (KeyPart E W)) (v1 v2 : V)
    (hsd : SD b.root) :
    (nodesAt ((b.insert k v1).insert k v2).root k).length = 1
    ∧ (findNode ((b.insert k v1).insert k v2).root k).map NodeBuilder.value
        = some (some v2)
    ∧ ∀ p, isFront p k = true →
        (nodesAt ((b.insert k v1).insert k v2).root p).length
          = (nodesAt (b.insert k v1).root p).length := by
  have hroot2 : ((b.insert k v1).insert k v2).root
      = insertNode (insertNode b.root k v1) k v2 := rfl
  have hsd1 : SD (insertNode b.root k v1) := SD_insertNode k b.root v1 hsd
  have hsd2 : SD (insertNode (insertNode b.root k v1) k v2) :=
    SD_insertNode k _ v2 hsd1
  have hobs2 := obs_insert_eq_at_key (insertNode b.root k v1) k v2
  have hex2 : (findNode (insertNode (insertNode b.root k v1) k v2) k).isSome = true := by
    rw [← isSome_obs, hobs2]; rfl
  refine ⟨?_, ?_, ?_⟩
  · rw [hroot2]
    exact nodesAt_length_eq_one hsd2 hex2
  · rw [hroot2]
    exact obs_eq_some_map_value hobs2
  · intro p hp
    rw [hroot2]
    have he2 : (findNode (insertNode (insertNode b.root k v1) k v2) p).isSome = true := by
      rw [← isSome_obs]
      exact obs_insert_isSome_of_front _ k v2 p hp
    have he1 : (findNode (insertNode b.root k v1) p).isSome = true := by
      rw [← isSome_obs]
      exact obs_insert_isSome_of_front b.root k v1 p hp
    rw [nodesAt_length_eq_one hsd2 he2]
    rw [show (b.insert k v1).root = insertNode b.root k v1 from rfl,
      nodesAt_length_eq_one hsd1 he1]

/-- Witness for C5 at a concrete overwrite. -/
theorem claim5_witness :
    (nodesAt (((PrefixTreeMapBuilder.new (E := Nat) (W := Nat) (V := Nat)).insert
        [KeyPart.Exact 1] 5).insert [KeyPart.Exact 1] 6).root [KeyPart.Exact 1]).length = 1
    ∧ (findNode (((PrefixTreeMapBuilder.new (E := Nat) (W := Nat)
        (V := Nat)).insert [KeyPart.Exact 1] 5).insert [KeyPart.Exact 1] 6).root
        [KeyPart.Exact 1]).map NodeBuilder.value = some (some 6)
    ∧ (nodesAt (((PrefixTreeMapBuilder.new (E := Nat) (W := Nat)
        (V := Nat)).insert [KeyPart.Exact 1] 5).insert [KeyPart.Exact 1] 6).root []).length
      = (nodesAt ((PrefixTreeMapBuilder.new (E := Nat) (W := Nat)
        (V := Nat)).insert [KeyPart.Exact 1] 5).root []).length :=
  ⟨(claim5_overwrite PrefixTreeMapBuilder.new [KeyPart.Exact 1] 5 6 SD_new_root).1,
   (claim5_overwrite PrefixTreeMapBuilder.new [KeyPart.Exact 1] 5 6 SD_new_root).2.1,
   (claim5_overwrite PrefixTreeMapBuilder.new [KeyPart.Exact 1] 5 6 SD_new_root).2.2
     [] (by decide)⟩

/-- C6: the finished tree produced by `build` is structurally
isomorphic to the construction tree (for the sibling-distinct trees the
builder actually produces): at every path, node existence, the key part
at the node and the stored value (carried over unchanged) agree;
`build` only reorders children. -/
theorem claim6_build_isomorphic {E W V : Type} [DecidableEq E] [DecidableEq W]
    [LinearOrder E] [LinearOrder W]
    (b : PrefixTreeMapBuilder E W V) (hsd : SD b.root) (p : List (KeyPart E W)) :
    obsN (b.build).root p = obs b.root p :=
  obsN_toNode b.root hsd p

/-- Witness for C6 at a concrete builder and path. -/
theorem claim6_witness :
    obsN (((PrefixTreeMapBuilder.new (E := Nat) (W := Nat) (V := Nat)).insert
        [KeyPart.Exact 1] 5).build).root [KeyPart.Exact 1]
      = obs ((PrefixTreeMapBuilder.new (E := Nat) (W := Nat) (V := Nat)).insert
        [KeyPart.Exact 1] 5).root [KeyPart.Exact 1] :=
  claim6_build_isomorphic ((PrefixTreeMapBuilder.new).insert [KeyPart.Exact 1] 5)
    (SD_insertNode [KeyPart.Exact 1] _ 5 SD_new_root) [KeyPart.Exact 1]

/-- C7: in every reachable construction tree no two siblings share a
key part: the invariant holds for a fresh builder and is preserved by
every `insert`; and inserting `[Wildcard 0]` then `[Wildcard 1]`
produces two distinct sibling nodes, not one merged node. -/
theorem claim7_sibling_distinctness {E W V : Type} [DecidableEq E] [DecidableEq W] :
    (∀ (k : List (KeyPart E W)) (t : NodeBuilder E W V) (v : V),
      SD t → SD (insertNode t k v))
    ∧ SD (PrefixTreeMapBuilder.new (E := E) (W := W) (V := V)).root
    ∧ ((((PrefixTreeMapBuilder.new (E := Nat) (W := Nat) (V := Nat)).insert
          [KeyPart.Wildcard 0] 1).insert [KeyPart.Wildcard 1] 2).root.children).map
        (fun l => l.map NodeBuilder.key_part)
      = some [some (KeyPart.Wildcard 0), some (KeyPart.Wildcard 1)] :=
  ⟨fun k t v h => SD_insertNode k t v h, SD_new_root, rfl⟩

/-- Witness for C7: the preservation half applied at a concrete tree. -/
theorem claim7_witness :
    SD (insertNode (PrefixTreeMapBuilder.new (E := Nat) (W := Nat)
      (V := Nat)).root [KeyPart.Wildcard 0] 1) :=
  claim7_sibling_distinctness.1 [KeyPart.Wildcard 0] _ 1 SD_new_root

/-- C8: `insert k v` never removes a node (every path that resolved
before still resolves) and changes no value slot other than the one at
path `k` (for every path `p ≠ k` the stored value, if any, is
unchanged). -/
theorem claim8_frame {E W V : Type} [DecidableEq E] [DecidableEq W]
    (b : PrefixTreeMapBuilder E W V) (k : List (KeyPart E W)) (v : V)
    (p : List (KeyPart E W)) :
    ((findNode b.root p).isSome = true →
      (findNode (b.insert k v).root p).isSome = true)
    ∧ (p ≠ k →
      (findNode (b.insert k v).root p).bind NodeBuilder.value
        = (findNode b.root p).bind NodeBuilder.value) := by
  have hroot : (b.insert k v).root = insertNode b.root k v := rfl
  constructor
  · intro h
    rw [hroot, ← isSome_obs, obs_insertNode]
    unfold obsF
    by_cases h1 : p = k
    · simp [h1]
    · by_cases h2 : isFront p k
      · simp [h1, h2]
      · rw [if_neg h1, if_neg (by simp [h2]), isSome_obs]
        exact h
  · intro hne
    rw [hroot, valAt_eq_obs_bind, valAt_eq_obs_bind, obs_insertNode]
    unfold obsF
    by_cases h2 : isFront p k
    · simp [hne, h2]
    · simp [hne, h2]

/-- Witness for C8 at a concrete tree, key and path. -/
theorem claim8_witness :
    ((findNode (((PrefixTreeMapBuilder.new (E := Nat) (W := Nat)
        (V := Nat)).insert [KeyPart.Exact 1] 5).insert [KeyPart.Exact 2] 7).root
        [KeyPart.Exact 1]).isSome = true)
    ∧ ((findNode (((PrefixTreeMapBuilder.new (E := Nat) (W := Nat)
        (V := Nat)).insert [KeyPart.Exact 1] 5).insert [KeyPart.Exact 2] 7).root
        [KeyPart.Exact 1]).bind NodeBuilder.value
      = (findNode ((PrefixTreeMapBuilder.new (E := Nat) (W := Nat)
        (V := Nat)).insert [KeyPart.Exact 1] 5).root
        [KeyPart.Exact 1]).bind NodeBuilder.value) :=
  ⟨(claim8_frame ((PrefixTreeMapBuilder.new).insert [KeyPart.Exact 1] 5)
      [KeyPart.Exact 2] 7 [KeyPart.Exact 1]).1 (by decide),
   (claim8_frame ((PrefixTreeMapBuilder.new).insert [KeyPart.Exact 1] 5)
      [KeyPart.Exact 2] 7 [KeyPart.Exact 1]).2 (by decide)⟩

/-- C9: inserting at the empty key sets the root's value and leaves the
root's key part absent; the key-part invariant (root `None`, every
non-root `Some`) holds for a fresh builder and is preserved by every
insert. -/
theorem claim9_empty_key {E W V : Type} [DecidableEq E] [DecidableEq W]
    (b : PrefixTreeMapBuilder E W V) (v v' : V) (k : List (KeyPart E W))
    (hinv : RootKeyInv b) :
    (b.insert [] v).root.value = some v
    ∧ (b.insert [] v).root.key_part = none
    ∧ RootKeyInv (b.insert k v')
    ∧ RootKeyInv (PrefixTreeMapBuilder.new (E := E) (W := W) (V := V)) := by
  refine ⟨?_, ?_, ⟨?_, ?_⟩, ⟨rfl, ChildrenKeyed.noneC none none⟩⟩
  · show (insertNode b.root [] v).value = some v
    cases b.root with | mk kp val cso => rfl
  · show (insertNode b.root [] v).key_part = none
    rw [insertNode_key_part]
    exact hinv.1
  · show (insertNode b.root k v').key_part = none
    rw [insertNode_key_part]
    exact hinv.1
  · show ChildrenKeyed (insertNode b.root k v')
    exact ChildrenKeyed_insertNode k b.root v' hinv.2

/-- Witness for C9 at a fresh builder. -/
theorem claim9_witness :
    ((PrefixTreeMapBuilder.new (E := Nat) (W := Nat) (V := Nat)).insert [] 5).root.value
      = some 5 :=
  (claim9_empty_key PrefixTreeMapBuilder.new 5 7 [KeyPart.Exact 1]
    ⟨rfl, ChildrenKeyed.noneC none none⟩).1

/-- C10: the derived `Clone` shares the construction tree rather than
copying it: after `b2 = b.clone()`, an insert performed through `b` is
observable through `b2` (the value at the inserted path, read through
`b2`'s root, is the inserted value), because the clone holds the same
root node handle (second conjunct). -/
theorem claim10_clone_shares_tree :
    valueAtH (runCalls (E := Nat) (W := Nat) (V := Nat)
        [ApiCall.newBuilder, ApiCall.clone 0,
         ApiCall.insert 0 [KeyPart.Exact 5] 7]).arena
      ((runCalls (E := Nat) (W := Nat) (V := Nat)
        [ApiCall.newBuilder, ApiCall.clone 0,
         ApiCall.insert 0 [KeyPart.Exact 5] 7]).builders.getD 1 ⟨0, 0⟩).root
      [KeyPart.Exact 5] = some 7
    ∧ ((runCalls (E := Nat) (W := Nat) (V := Nat)
        [ApiCall.newBuilder, ApiCall.clone 0]).builders.getD 1 ⟨0, 0⟩).root
      = ((runCalls (E := Nat) (W := Nat) (V := Nat)
        [ApiCall.newBuilder, ApiCall.clone 0]).builders.getD 0 ⟨0, 0⟩).root :=
  ⟨rfl, rfl⟩
